import Mathlib

/-!
Verification of the 2D finite-difference microheater simulation (src/FDM2.py)
against its specification.

The script is embedded shallowly over the rationals: every float of the
source becomes a `ℚ`, every numpy array becomes a total function from its
indices, and the script's fixed parameters become arguments so that the
theorems quantify over the configuration the spec describes.  Python- and
numpy-specific behaviors that the claims depend on are modelled explicitly:
`round` is round-half-to-even (`pyRound`), `int` truncates toward zero
(`pyInt`), `np.arange` takes `ceil((stop-start)/step)` samples (`pyArange`),
numpy integer indexing wraps negative in-range indices and raises on the
rest (`npIndex`), and `np.mean` of an empty selection yields NaN, modelled
as `none` (`npMean`).
-/

/-! ## Coordinate mapping (src/FDM2.py lines 26-27) -/

/-- Python's builtin `round` on an exact value: nearest integer, ties
resolved to the even neighbor (banker's rounding). -/
def pyRound (q : ℚ) : ℤ :=
  if q - ⌊q⌋ < 1/2 then ⌊q⌋
  else if 1/2 < q - ⌊q⌋ then ⌊q⌋ + 1
  else if Even ⌊q⌋ then ⌊q⌋ else ⌊q⌋ + 1

/-- Translation of `coord_to_index(x, y) = int(round(y/dy)), int(round(x/dx))`
(src/FDM2.py lines 26-27): first component is the row index j, second the
column index i. -/
def coordToIndex (dx dy x y : ℚ) : ℤ × ℤ :=
  (pyRound (y / dy), pyRound (x / dx))

/-! ## Grid initialization (src/FDM2.py lines 5-17) -/

/-- Python's `int()` on an exact value: truncation toward zero. -/
def pyInt (q : ℚ) : ℤ :=
  if 0 ≤ q then ⌊q⌋ else -⌊-q⌋

/-- Failure modes of the setup code as Python actually surfaces them:
`Lx/dx` with `dx = 0` raises `ZeroDivisionError`, and `np.full` with a
negative dimension raises `ValueError`. -/
inductive InitError where
  | zeroDivisionError : InitError
  | negativeDimension : InitError
deriving DecidableEq

/-- The grid produced by setup: dimensions and the temperature field
(row-major: first index is the row j, second the column i). -/
structure SimGrid where
  nx : ℕ
  ny : ℕ
  cells : ℕ → ℕ → ℚ

/-- Translation of the grid setup (src/FDM2.py lines 5-17), generalized over
the configuration scalars: `nx = int(Lx/dx) + 1`, `ny = int(Ly/dy) + 1`,
`T = np.full((ny, nx), T_boundary)`.  The source performs no validation of
its own; the two error branches model the exceptions Python itself raises
(division by zero in `Lx/dx`, negative dimensions in `np.full`). -/
def initGrid (Lx Ly dx dy bT : ℚ) : Except InitError SimGrid :=
  if dx = 0 ∨ dy = 0 then .error .zeroDivisionError
  else
    let nxZ : ℤ := pyInt (Lx / dx) + 1
    let nyZ : ℤ := pyInt (Ly / dy) + 1
    if nxZ < 0 ∨ nyZ < 0 then .error .negativeDimension
    else .ok ⟨nxZ.toNat, nyZ.toNat, fun _ _ => bT⟩

/-! ## Heater rasterization (src/FDM2.py lines 23-48) -/

/-- `np.arange(start, stop, step)` over exact values for positive `step`:
`ceil((stop - start)/step)` samples `start + k*step`. -/
def pyArange (s stop step : ℚ) : List ℚ :=
  (List.range (⌈(stop - s) / step⌉.toNat)).map fun k : ℕ => s + (k : ℚ) * step

/-- Setting one cell of a boolean mask to `True` (`heater_mask[j, i] = True`).
The mask is indexed by the raw integer pair `coord_to_index` returns. -/
def maskMark (m : ℤ → ℤ → Bool) (ji : ℤ × ℤ) : ℤ → ℤ → Bool :=
  fun j i => if j = ji.1 ∧ i = ji.2 then true else m j i

/-- The horizontal-segment loop (src/FDM2.py lines 33-35): for each `x` in
`np.arange(x_left, x_right+dx, dx)`, mark `coord_to_index(x, y)`. -/
def markHorizontal (dx dy xl xr y : ℚ) (m : ℤ → ℤ → Bool) : ℤ → ℤ → Bool :=
  (pyArange xl (xr + dx) dx).foldl (fun m x => maskMark m (coordToIndex dx dy x y)) m

/-- The vertical-segment loops (src/FDM2.py lines 38-45): for each `y` in
`np.arange(y_bottom, y_top+dy, dy)`, mark `coord_to_index(x, y)`. -/
def markVertical (dx dy x yb yt : ℚ) (m : ℤ → ℤ → Bool) : ℤ → ℤ → Bool :=
  (pyArange yb (yt + dy) dy).foldl (fun m y => maskMark m (coordToIndex dx dy x y)) m

/-- The full U-outline rasterization (src/FDM2.py lines 24-45): bottom
horizontal segment, then left leg, then right leg, starting from the
all-`False` mask. -/
def heaterMaskRaster (dx dy xl xr yb yt : ℚ) : ℤ → ℤ → Bool :=
  markVertical dx dy xr yb yt
    (markVertical dx dy xl yb yt
      (markHorizontal dx dy xl xr yb (fun _ _ => false)))

/-- Stamping the heater temperature into the field (`T[heater_mask] = T_heater`,
src/FDM2.py line 48). -/
def stampHeater (T : ℕ → ℕ → ℚ) (mask : ℕ → ℕ → Bool) (hT : ℚ) : ℕ → ℕ → ℚ :=
  fun j i => if mask j i then hT else T j i

/-! ## Relaxation solver (src/FDM2.py lines 19-21 and 51-64) -/

/-- Stencil coefficient `a = 1.0 / dx**2` (src/FDM2.py line 19). -/
def coefA (dx : ℚ) : ℚ := 1 / dx ^ 2

/-- Stencil coefficient `b = 1.0 / dy**2` (src/FDM2.py line 20). -/
def coefB (dy : ℚ) : ℚ := 1 / dy ^ 2

/-- Denominator `denom = 2 * (a + b)` (src/FDM2.py line 21). -/
def coefDenom (dx dy : ℚ) : ℚ := 2 * (coefA dx + coefB dy)

/-- In-place assignment `T[j, i] = v` on the field. -/
def updT (T : ℕ → ℕ → ℚ) (j i : ℕ) (v : ℚ) : ℕ → ℕ → ℚ :=
  fun j' i' => if j' = j ∧ i' = i then v else T j' i'

/-- The right-hand side of the update formula (src/FDM2.py line 58):
`(a*(T[j,i+1] + T[j,i-1]) + b*(T[j+1,i] + T[j-1,i])) / denom`. -/
def sweepUpdate (a b denom : ℚ) (T : ℕ → ℕ → ℚ) (c : ℕ × ℕ) : ℚ :=
  (a * (T c.1 (c.2 + 1) + T c.1 (c.2 - 1))
    + b * (T (c.1 + 1) c.2 + T (c.1 - 1) c.2)) / denom

/-- One body execution of the inner loops on the running state (field,
max_diff): skip heater cells, otherwise overwrite the cell with the
five-point update and fold its absolute change (new value minus the stored
old value) into max_diff. -/
def sweepStep (a b denom : ℚ) (mask : ℕ → ℕ → Bool)
    (s : (ℕ → ℕ → ℚ) × ℚ) (c : ℕ × ℕ) : (ℕ → ℕ → ℚ) × ℚ :=
  if mask c.1 c.2 then s
  else (updT s.1 c.1 c.2 (sweepUpdate a b denom s.1 c),
    max s.2 |sweepUpdate a b denom s.1 c - s.1 c.1 c.2|)

/-- The visiting order of the nested loops `for j in range(1, ny-1): for i in
range(1, nx-1)` (src/FDM2.py lines 53-54): row-major, j ascending then i
ascending. -/
def rowMajor (ny nx : ℕ) : List (ℕ × ℕ) :=
  (List.range' 1 (ny - 2)).flatMap fun j => (List.range' 1 (nx - 2)).map fun i => (j, i)

/-- One full sweep (one iteration of the outer loop body, src/FDM2.py lines
52-59): max_diff reset to 0, then the row-major in-place pass.  Returns the
updated field together with the sweep's max_diff. -/
def sweep (a b denom : ℚ) (mask : ℕ → ℕ → Bool) (ny nx : ℕ)
    (T : ℕ → ℕ → ℚ) : (ℕ → ℕ → ℚ) × ℚ :=
  (rowMajor ny nx).foldl (sweepStep a b denom mask) (T, 0)

/-- The field after `k` complete sweeps. -/
def iterSweeps (a b denom : ℚ) (mask : ℕ → ℕ → Bool) (ny nx : ℕ) :
    ℕ → (ℕ → ℕ → ℚ) → (ℕ → ℕ → ℚ)
  | 0, T => T
  | k + 1, T => iterSweeps a b denom mask ny nx k (sweep a b denom mask ny nx T).1

/-- The max_diff reported by sweep number `k` (0-based) when starting from
field `T`. -/
def sweepDiff (a b denom : ℚ) (mask : ℕ → ℕ → Bool) (ny nx : ℕ)
    (T : ℕ → ℕ → ℚ) (k : ℕ) : ℚ :=
  (sweep a b denom mask ny nx (iterSweeps a b denom mask ny nx k T)).2

/-- Terminal state of the iteration loop: `converged it` models the `break`
with the `Converged in {it} iterations` report, `notConverged` the for-else
`Did not converge!` report (src/FDM2.py lines 60-64). -/
inductive SolveStatus where
  | converged : ℕ → SolveStatus
  | notConverged : SolveStatus
deriving DecidableEq

/-- The iteration loop `for it in range(max_iter)` (src/FDM2.py lines 51-64)
with `it` the current iteration index and `fuel` the remaining budget:
sweep, then stop with `converged it` when `max_diff < tol`, else continue;
exhausting the budget ends in `notConverged`.  Both terminal states carry
the field as the loop leaves it. -/
def solveGo (a b denom : ℚ) (mask : ℕ → ℕ → Bool) (ny nx : ℕ) (tol : ℚ) :
    ℕ → ℕ → (ℕ → ℕ → ℚ) → (ℕ → ℕ → ℚ) × SolveStatus
  | _, 0, T => (T, .notConverged)
  | it, fuel + 1, T =>
    if (sweep a b denom mask ny nx T).2 < tol
    then ((sweep a b denom mask ny nx T).1, .converged it)
    else solveGo a b denom mask ny nx tol (it + 1) fuel (sweep a b denom mask ny nx T).1

/-- The complete solver run: the loop started at iteration 0 with budget
`maxIter`. -/
def solve (a b denom : ℚ) (mask : ℕ → ℕ → Bool) (ny nx : ℕ) (tol : ℚ)
    (maxIter : ℕ) (T : ℕ → ℕ → ℚ) : (ℕ → ℕ → ℚ) × SolveStatus :=
  solveGo a b denom mask ny nx tol 0 maxIter T

/-! ## Query engine (src/FDM2.py lines 66-84) -/

/-- Numpy's `IndexError` for an integer index out of the axis range. -/
inductive NpIndexError where
  | outOfBounds : NpIndexError
deriving DecidableEq

/-- Numpy integer indexing of an axis of length `n`: indices in `[0, n-1]`
address that cell, negative indices in `[-n, -1]` silently wrap around to
cell `n + idx`, and anything else raises `IndexError`. -/
def npIndex (n : ℕ) (idx : ℤ) : Except NpIndexError ℕ :=
  if 0 ≤ idx ∧ idx < (n : ℤ) then .ok idx.toNat
  else if -(n : ℤ) ≤ idx ∧ idx < 0 then .ok (idx + n).toNat
  else .error .outOfBounds

/-- The point probe (src/FDM2.py lines 77-81): `jq, iq =
coord_to_index(x_query, y_query); temp_below = T[jq, iq]`, with the array
access given numpy's indexing semantics on each axis. -/
def tempBelowE (dx dy : ℚ) (ny nx : ℕ) (T : ℕ → ℕ → ℚ) (xq yq : ℚ) :
    Except NpIndexError ℚ :=
  match npIndex ny (coordToIndex dx dy xq yq).1, npIndex nx (coordToIndex dx dy xq yq).2 with
  | .ok j, .ok i => .ok (T j i)
  | .error e, _ => .error e
  | _, .error e => .error e

/-- Column selector `np.arange(nx)*dx >= x_left+dx  &  np.arange(nx)*dx <=
x_right-dx` (src/FDM2.py line 68), as a predicate on the column index. -/
def xInsideFlag (dx xl xr : ℚ) (i : ℕ) : Bool :=
  decide (xl + dx ≤ (i : ℚ) * dx ∧ (i : ℚ) * dx ≤ xr - dx)

/-- Row selector (src/FDM2.py line 69). -/
def yInsideFlag (dy yb yt : ℚ) (j : ℕ) : Bool :=
  decide (yb + dy ≤ (j : ℚ) * dy ∧ (j : ℚ) * dy ≤ yt - dy)

/-- The interior region mask (src/FDM2.py lines 67-73): the query rectangle
minus heater cells, `x_inside[i] and y_inside[j] and not heater_mask[j, i]`. -/
def insideMask (dx dy xl xr yb yt : ℚ) (mask : ℕ → ℕ → Bool) (j i : ℕ) : Bool :=
  xInsideFlag dx xl xr i && yInsideFlag dy yb yt j && !mask j i

/-- All cells of the ny×nx array in row-major order (the order in which
`T[inside_mask]` flattens the array). -/
def allCells (ny nx : ℕ) : List (ℕ × ℕ) :=
  (List.range ny).flatMap fun j => (List.range nx).map fun i => (j, i)

/-- The flattened selection `T[inside_mask]`: the field values of the cells
the interior region mask selects, in row-major order. -/
def selectedVals (dx dy xl xr yb yt : ℚ) (mask : ℕ → ℕ → Bool) (ny nx : ℕ)
    (T : ℕ → ℕ → ℚ) : List ℚ :=
  (allCells ny nx).filterMap fun c =>
    if insideMask dx dy xl xr yb yt mask c.1 c.2 then some (T c.1 c.2) else none

/-- `np.mean` of a selection: the arithmetic mean; on an empty selection
numpy emits a warning and yields NaN, modelled here as `none` — the
`EmptyRegion` failure outcome of the average query. -/
def npMean (l : List ℚ) : Option ℚ :=
  if l.isEmpty then none else some (l.sum / (l.length : ℚ))

/-- The region-average query `avg_temp_inside = np.mean(T[inside_mask])`
(src/FDM2.py line 75). -/
def avgTempInside (dx dy xl xr yb yt : ℚ) (mask : ℕ → ℕ → Bool) (ny nx : ℕ)
    (T : ℕ → ℕ → ℚ) : Option ℚ :=
  npMean (selectedVals dx dy xl xr yb yt mask ny nx T)

/-- The full query stage (src/FDM2.py lines 66-84): the region average and
the point probe computed over the same field. -/
def queryStage (dx dy xl xr yb yt : ℚ) (mask : ℕ → ℕ → Bool) (ny nx : ℕ)
    (T : ℕ → ℕ → ℚ) (xq yq : ℚ) : Option ℚ × Except NpIndexError ℚ :=
  (avgTempInside dx dy xl xr yb yt mask ny nx T, tempBelowE dx dy ny nx T xq yq)

/-- The pipeline after setup (src/FDM2.py lines 51-84): run the solver, then
run both queries against whatever field the solver left, whether or not it
converged. -/
def runSim (a b denom : ℚ) (mask : ℕ → ℕ → Bool) (ny nx : ℕ) (tol : ℚ)
    (maxIter : ℕ) (T : ℕ → ℕ → ℚ) (dx dy xl xr yb yt xq yq : ℚ) :
    ((ℕ → ℕ → ℚ) × SolveStatus) × (Option ℚ × Except NpIndexError ℚ) :=
  let rs := solve a b denom mask ny nx tol maxIter T
  (rs, queryStage dx dy xl xr yb yt mask ny nx rs.1 xq yq)

/-! ## The concrete configuration of the script (src/FDM2.py lines 5-14 and
29-30 and 77-79) -/

def LxVal : ℚ := 10
def LyVal : ℚ := 10
def dxVal : ℚ := 1/10
def dyVal : ℚ := 1/10
def tBoundaryVal : ℚ := 25
def tHeaterVal : ℚ := 185
def tolVal : ℚ := 1/1000000
def maxIterVal : ℕ := 100000
def xLeftVal : ℚ := 9/2
def xRightVal : ℚ := 11/2
def yBottomVal : ℚ := 9/2
def yTopVal : ℚ := 11/2
def xQueryVal : ℚ := (xLeftVal + xRightVal) / 2
def yQueryVal : ℚ := yBottomVal - 2

/-! ## Rounding lemmas -/

theorem pyRound_sub_abs (q : ℚ) : |q - (pyRound q : ℚ)| ≤ 1/2 := by
  have h0 : ((⌊q⌋ : ℤ) : ℚ) ≤ q := Int.floor_le q
  have h1 : q < ⌊q⌋ + 1 := Int.lt_floor_add_one q
  unfold pyRound
  split_ifs with hlt hgt heven <;>
    · push_cast
      rw [abs_le]
      constructor <;> linarith

theorem pyRound_int_add_half (k : ℤ) :
    pyRound ((k : ℚ) + 1/2) = if Even k then k else k + 1 := by
  have hfl : ⌊(k : ℚ) + 1/2⌋ = k := by
    rw [Int.floor_int_add]
    norm_num
  unfold pyRound
  rw [hfl]
  have hr : (k : ℚ) + 1/2 - (k : ℤ) = 1/2 := by ring
  rw [hr]
  norm_num

/-- C9: for a coordinate whose mapped index lies within the grid, the
round-trip through the coordinate mapping lands within half a grid spacing:
`|x - i*dx| ≤ dx/2` for `i = round(x/dx)`, and symmetrically in y. -/
theorem probe_roundtrip_half_spacing (dx dy x y : ℚ) (nx ny : ℕ)
    (hdx : 0 < dx) (hdy : 0 < dy)
    (hix0 : 0 ≤ (coordToIndex dx dy x y).2)
    (hix1 : (coordToIndex dx dy x y).2 ≤ (nx : ℤ) - 1)
    (hiy0 : 0 ≤ (coordToIndex dx dy x y).1)
    (hiy1 : (coordToIndex dx dy x y).1 ≤ (ny : ℤ) - 1) :
    |x - ((coordToIndex dx dy x y).2 : ℚ) * dx| ≤ dx / 2 ∧
    |y - ((coordToIndex dx dy x y).1 : ℚ) * dy| ≤ dy / 2 := by
  constructor
  · have h := pyRound_sub_abs (x / dx)
    have hre : x - ((coordToIndex dx dy x y).2 : ℚ) * dx
        = (x / dx - (pyRound (x / dx) : ℚ)) * dx := by
      simp only [coordToIndex]
      field_simp
      ring
    rw [hre, abs_mul, abs_of_pos hdx]
    calc |x / dx - (pyRound (x / dx) : ℚ)| * dx ≤ (1/2) * dx :=
          mul_le_mul_of_nonneg_right h hdx.le
      _ = dx / 2 := by ring
  · have h := pyRound_sub_abs (y / dy)
    have hre : y - ((coordToIndex dx dy x y).1 : ℚ) * dy
        = (y / dy - (pyRound (y / dy) : ℚ)) * dy := by
      simp only [coordToIndex]
      field_simp
      ring
    rw [hre, abs_mul, abs_of_pos hdy]
    calc |y / dy - (pyRound (y / dy) : ℚ)| * dy ≤ (1/2) * dy :=
          mul_le_mul_of_nonneg_right h hdy.le
      _ = dy / 2 := by ring

/-- Concrete instance of `probe_roundtrip_half_spacing`: the script's spacing
dx = dy = 1/10 and the probe point (5, 5/2), whose mapped index (25, 50) lies
in the 101 by 101 grid. -/
theorem probe_roundtrip_half_spacing_witness :
    |(5 : ℚ) - ((coordToIndex (1/10) (1/10) 5 (5/2)).2 : ℚ) * (1/10)| ≤ (1/10) / 2 ∧
    |(5/2 : ℚ) - ((coordToIndex (1/10) (1/10) 5 (5/2)).1 : ℚ) * (1/10)| ≤ (1/10) / 2 :=
  probe_roundtrip_half_spacing (1/10) (1/10) 5 (5/2) 101 101
    (by norm_num) (by norm_num)
    (by norm_num [coordToIndex, pyRound]) (by norm_num [coordToIndex, pyRound])
    (by norm_num [coordToIndex, pyRound]) (by norm_num [coordToIndex, pyRound])

/-- C10: `coord_to_index` is the total function pairing the banker's
roundings of y/dy and x/dx, and at a coordinate lying exactly halfway
between two grid lines it resolves the tie to the even index, not upward. -/
theorem coordToIndex_half_to_even (dx dy x y : ℚ) (k m : ℤ)
    (hdx : dx ≠ 0) (hdy : dy ≠ 0) :
    coordToIndex dx dy x y = (pyRound (y / dy), pyRound (x / dx)) ∧
    (coordToIndex dx dy (((k : ℚ) + 1/2) * dx) y).2 = (if Even k then k else k + 1) ∧
    (coordToIndex dx dy x (((m : ℚ) + 1/2) * dy)).1 = (if Even m then m else m + 1) := by
  refine ⟨rfl, ?_, ?_⟩
  · have hq : ((k : ℚ) + 1/2) * dx / dx = (k : ℚ) + 1/2 := by
      field_simp
      ring
    simp only [coordToIndex, hq, pyRound_int_add_half]
  · have hq : ((m : ℚ) + 1/2) * dy / dy = (m : ℚ) + 1/2 := by
      field_simp
      ring
    simp only [coordToIndex, hq, pyRound_int_add_half]

/-- Concrete instance of `coordToIndex_half_to_even` at the script's spacing
dx = dy = 1/10, with k = 4 (x = 0.45, halfway between columns 4 and 5) and
m = 5 (y = 0.55, halfway between rows 5 and 6). -/
theorem coordToIndex_half_to_even_witness :
    coordToIndex (1/10) (1/10) (9/20) (11/20)
      = (pyRound ((11/20) / (1/10)), pyRound ((9/20) / (1/10))) ∧
    (coordToIndex (1/10) (1/10) ((((4 : ℤ) : ℚ) + 1/2) * (1/10)) (11/20)).2
      = (if Even (4 : ℤ) then (4 : ℤ) else 4 + 1) ∧
    (coordToIndex (1/10) (1/10) (9/20) ((((5 : ℤ) : ℚ) + 1/2) * (1/10))).1
      = (if Even (5 : ℤ) then (5 : ℤ) else 5 + 1) :=
  coordToIndex_half_to_even (1/10) (1/10) (9/20) (11/20) 4 5 (by norm_num) (by norm_num)

/-! ## Grid setup behavior (claim C7) -/

/-- Counterexample to C7: with Lx = Ly = 10 and dx = dy = 6 the derived
dimensions are nx = ny = 2 < 3, yet initialization succeeds (no
InvalidDiscretization failure), producing the 2 by 2 grid of boundaryTemp;
and with dx = dy = -6 (so dx ≤ 0) it also succeeds, with nx = ny = 0. -/
theorem initGrid_small_dims_no_error :
    (initGrid 10 10 6 6 25).map SimGrid.nx = Except.ok 2 ∧ (2 < 3) ∧
    (initGrid 10 10 6 6 25).map (fun g => g.cells 0 0) = Except.ok 25 ∧
    (initGrid 10 10 (-6) (-6) 25).map SimGrid.nx = Except.ok 0 := by
  refine ⟨?_, by norm_num, ?_, ?_⟩
  · norm_num [initGrid, pyInt, Except.map]
    rfl
  · norm_num [initGrid, pyInt, Except.map]
  · norm_num [initGrid, pyInt, Except.map]

/-- Amended C7: grid initialization performs no validation of its own.  With
dx, dy nonzero and nonnegative derived dimensions it always produces the
ny by nx grid with every cell equal to boundaryTemp — even when nx or ny is
below 3 — with no other effect; dx = 0 or dy = 0 fails with Python's
ZeroDivisionError and a negative derived dimension fails with numpy's
ValueError, neither of which is an InvalidDiscretization check. -/
theorem initGrid_semantics (Lx Ly dx dy bT : ℚ) :
    ((dx = 0 ∨ dy = 0) → initGrid Lx Ly dx dy bT = .error .zeroDivisionError) ∧
    (dx ≠ 0 → dy ≠ 0 → (pyInt (Lx / dx) + 1 < 0 ∨ pyInt (Ly / dy) + 1 < 0) →
      initGrid Lx Ly dx dy bT = .error .negativeDimension) ∧
    (dx ≠ 0 → dy ≠ 0 → 0 ≤ pyInt (Lx / dx) + 1 → 0 ≤ pyInt (Ly / dy) + 1 →
      initGrid Lx Ly dx dy bT
        = .ok ⟨(pyInt (Lx / dx) + 1).toNat, (pyInt (Ly / dy) + 1).toNat, fun _ _ => bT⟩) := by
  refine ⟨fun h => ?_, fun hdx hdy hneg => ?_, fun hdx hdy hnx hny => ?_⟩
  · simp [initGrid, h]
  · simp only [initGrid, if_neg (by tauto : ¬(dx = 0 ∨ dy = 0))]
    rw [if_pos]
    exact hneg
  · simp only [initGrid, if_neg (by tauto : ¬(dx = 0 ∨ dy = 0))]
    rw [if_neg]
    omega

/-! ## Numpy indexing and the point probe (claim C6) -/

/-- When both axis lookups succeed, the probe returns the addressed cell. -/
theorem tempBelowE_of_ok (dx dy : ℚ) (ny nx : ℕ) (T : ℕ → ℕ → ℚ) (xq yq : ℚ) (j i : ℕ)
    (h1 : npIndex ny (coordToIndex dx dy xq yq).1 = .ok j)
    (h2 : npIndex nx (coordToIndex dx dy xq yq).2 = .ok i) :
    tempBelowE dx dy ny nx T xq yq = .ok (T j i) := by
  unfold tempBelowE
  rw [h1, h2]

/-- Counterexample to C6: on the 3 by 3 grid with dx = dy = 1, the probe
coordinate x = -1 maps to column index -1, which is outside [0, nx-1]; yet
the probe does not fail — numpy wraparound silently redirects it to column 2
and returns that cell's value. -/
theorem probe_negative_index_no_error :
    (coordToIndex 1 1 (-1) 1).2 = -1 ∧
    ¬ ((0 : ℤ) ≤ -1) ∧
    tempBelowE 1 1 3 3 (fun j i => 10 * (j : ℚ) + (i : ℚ)) (-1) 1
      = Except.ok 12 := by
  have hc : coordToIndex 1 1 (-1) 1 = (1, -1) := by
    norm_num [coordToIndex, pyRound, Int.even_iff]
  refine ⟨by rw [hc], by norm_num, ?_⟩
  have hj : npIndex 3 ((coordToIndex 1 1 (-1) 1).1) = Except.ok 1 := by
    rw [hc]
    show npIndex 3 1 = Except.ok 1
    rw [npIndex, if_pos ⟨by omega, by omega⟩]
    rfl
  have hi : npIndex 3 ((coordToIndex 1 1 (-1) 1).2) = Except.ok 2 := by
    rw [hc]
    show npIndex 3 (-1) = Except.ok 2
    rw [npIndex, if_neg (by omega), if_pos ⟨by omega, by omega⟩]
    rfl
  rw [tempBelowE_of_ok 1 1 3 3 (fun j i => 10 * (j : ℚ) + (i : ℚ)) (-1) 1 1 2 hj hi]
  norm_num

/-- Amended C6: numpy indexing of an axis of length n fails with IndexError
(the OutOfBounds outcome) only when the index is below -n or at least n; a
negative index in [-n, -1] is silently redirected to the cell n + idx
(wraparound), so an index outside [0, n-1] does not always fail; and when
both mapped indices are within [0, ny-1] and [0, nx-1] the probe returns the
nearest cell's value directly, with no interpolation. -/
theorem npIndex_probe_semantics (dx dy : ℚ) (ny nx : ℕ) (T : ℕ → ℕ → ℚ) (x y : ℚ) :
    (∀ (n : ℕ) (idx : ℤ),
      (0 ≤ idx → idx < (n : ℤ) → npIndex n idx = .ok idx.toNat) ∧
      (-(n : ℤ) ≤ idx → idx < 0 → npIndex n idx = .ok (idx + n).toNat) ∧
      ((idx < -(n : ℤ) ∨ (n : ℤ) ≤ idx) → npIndex n idx = .error .outOfBounds)) ∧
    (∀ j i : ℕ, (j : ℤ) = (coordToIndex dx dy x y).1 → (i : ℤ) = (coordToIndex dx dy x y).2 →
      j < ny → i < nx → tempBelowE dx dy ny nx T x y = .ok (T j i)) := by
  constructor
  · intro n idx
    refine ⟨fun h0 h1 => ?_, fun h0 h1 => ?_, fun h => ?_⟩
    · rw [npIndex, if_pos ⟨h0, h1⟩]
    · rw [npIndex, if_neg (by omega), if_pos ⟨h0, h1⟩]
    · rw [npIndex, if_neg (by omega), if_neg (by omega)]
  · intro j i hj hi hjn hin
    have h1 : npIndex ny (coordToIndex dx dy x y).1 = .ok j := by
      rw [npIndex, if_pos ⟨by omega, by omega⟩]
      rw [← hj, Int.toNat_natCast]
    have h2 : npIndex nx (coordToIndex dx dy x y).2 = .ok i := by
      rw [npIndex, if_pos ⟨by omega, by omega⟩]
      rw [← hi, Int.toNat_natCast]
    exact tempBelowE_of_ok dx dy ny nx T x y j i h1 h2

/-! ## Rasterization lemmas (claim C5) -/

theorem foldl_maskMark_true_iff (f : ℚ → ℤ × ℤ) (pts : List ℚ) :
    ∀ (m : ℤ → ℤ → Bool) (j i : ℤ),
      (pts.foldl (fun m p => maskMark m (f p)) m) j i = true ↔
        m j i = true ∨ ∃ p ∈ pts, f p = (j, i) := by
  induction pts with
  | nil => intro m j i; simp
  | cons hd tl ih =>
    intro m j i
    rw [List.foldl_cons, ih]
    constructor
    · rintro (h | ⟨p, hp, he⟩)
      · by_cases hc : j = (f hd).1 ∧ i = (f hd).2
        · refine Or.inr ⟨hd, List.mem_cons_self hd tl, ?_⟩
          rw [Prod.ext_iff]
          exact ⟨hc.1.symm, hc.2.symm⟩
        · left
          rwa [maskMark, if_neg hc] at h
      · exact Or.inr ⟨p, List.mem_cons_of_mem hd hp, he⟩
    · rintro (h | ⟨p, hp, he⟩)
      · left
        rw [maskMark]
        split_ifs with hc
        · rfl
        · exact h
      · rcases List.mem_cons.mp hp with rfl | hmem
        · left
          rw [maskMark, if_pos ⟨(congrArg Prod.fst he).symm, (congrArg Prod.snd he).symm⟩]
        · exact Or.inr ⟨p, hmem, he⟩

theorem markHorizontal_true_iff (dx dy xl xr y : ℚ) (m : ℤ → ℤ → Bool) (j i : ℤ) :
    markHorizontal dx dy xl xr y m j i = true ↔
      m j i = true ∨ ∃ x ∈ pyArange xl (xr + dx) dx, coordToIndex dx dy x y = (j, i) := by
  unfold markHorizontal
  exact foldl_maskMark_true_iff _ _ _ _ _

theorem markVertical_true_iff (dx dy x yb yt : ℚ) (m : ℤ → ℤ → Bool) (j i : ℤ) :
    markVertical dx dy x yb yt m j i = true ↔
      m j i = true ∨ ∃ yv ∈ pyArange yb (yt + dy) dy, coordToIndex dx dy x yv = (j, i) := by
  unfold markVertical
  exact foldl_maskMark_true_iff _ _ _ _ _

/-- When the segment length is an exact multiple of the step, the source's
`np.arange(start, end+step, step)` sampling yields exactly the n+1 samples
`start + k*step`, k = 0..n: both endpoints are included (k = 0 is the start,
k = n is the end) and no sample lies beyond the end. -/
theorem pyArange_exact (s e step : ℚ) (n : ℕ) (hstep : 0 < step)
    (he : e = s + (n : ℚ) * step) :
    pyArange s (e + step) step = (List.range (n + 1)).map fun k : ℕ => s + (k : ℚ) * step := by
  unfold pyArange
  have h1 : (e + step - s) / step = ((n : ℚ) + 1) := by
    rw [he]
    field_simp
    ring
  rw [h1]
  have h2 : ⌈((n : ℚ) + 1)⌉ = (n : ℤ) + 1 := by
    rw [show ((n : ℚ) + 1) = (((n + 1 : ℕ) : ℤ) : ℚ) by push_cast; ring, Int.ceil_intCast]
    push_cast
    ring
  rw [h2]
  norm_num

/-- C5: with each segment length an exact multiple of the grid step, the
rasterizer's samples run from each segment's start to its end inclusive with
no sample beyond the end, duplicate marks at shared corners are absorbed
idempotently, and the heater mask holds true precisely at the nearest-index
images of those samples under the coordinate mapping. -/
theorem raster_marks_exact_samples (dx dy xl xr yb yt : ℚ) (mx my : ℕ)
    (hdx : 0 < dx) (hdy : 0 < dy)
    (hx : xr = xl + (mx : ℚ) * dx) (hy : yt = yb + (my : ℚ) * dy) :
    (pyArange xl (xr + dx) dx = (List.range (mx + 1)).map fun k : ℕ => xl + (k : ℚ) * dx) ∧
    (pyArange yb (yt + dy) dy = (List.range (my + 1)).map fun k : ℕ => yb + (k : ℚ) * dy) ∧
    ∀ j i : ℤ, heaterMaskRaster dx dy xl xr yb yt j i = true ↔
      ((∃ k ≤ mx, coordToIndex dx dy (xl + (k : ℚ) * dx) yb = (j, i)) ∨
       (∃ k ≤ my, coordToIndex dx dy xl (yb + (k : ℚ) * dy) = (j, i)) ∨
       (∃ k ≤ my, coordToIndex dx dy xr (yb + (k : ℚ) * dy) = (j, i))) := by
  have hex : ∀ (g : ℕ → ℚ) (n : ℕ) (P : ℚ → Prop),
      (∃ p ∈ (List.range (n + 1)).map g, P p) ↔ ∃ k ≤ n, P (g k) := by
    intro g n P
    constructor
    · rintro ⟨p, hp, hP⟩
      obtain ⟨k, hk, rfl⟩ := List.mem_map.mp hp
      exact ⟨k, Nat.lt_succ_iff.mp (List.mem_range.mp hk), hP⟩
    · rintro ⟨k, hk, hP⟩
      exact ⟨g k, List.mem_map_of_mem g (List.mem_range.mpr (Nat.lt_succ_iff.mpr hk)), hP⟩
  have hax := pyArange_exact xl xr dx mx hdx hx
  have hay := pyArange_exact yb yt dy my hdy hy
  refine ⟨hax, hay, fun j i => ?_⟩
  rw [heaterMaskRaster, markVertical_true_iff, markVertical_true_iff,
    markHorizontal_true_iff, hax, hay]
  rw [hex, hex, hex]
  constructor
  · rintro (((h | h) | h) | h)
    · cases h
    · exact Or.inl h
    · exact Or.inr (Or.inl h)
    · exact Or.inr (Or.inr h)
  · rintro (h | h | h)
    · exact Or.inl (Or.inl (Or.inr h))
    · exact Or.inl (Or.inr h)
    · exact Or.inr h

/-- Concrete instance of `raster_marks_exact_samples`: the script's geometry
(dx = dy = 1/10, legs at x = 4.5 and 5.5, bottom at y = 4.5, top at 5.5),
where each segment spans exactly 10 steps. -/
theorem raster_marks_exact_samples_witness :
    (pyArange (9/2) (11/2 + 1/10) (1/10)
      = (List.range (10 + 1)).map fun k : ℕ => 9/2 + (k : ℚ) * (1/10)) ∧
    (pyArange (9/2) (11/2 + 1/10) (1/10)
      = (List.range (10 + 1)).map fun k : ℕ => 9/2 + (k : ℚ) * (1/10)) ∧
    ∀ j i : ℤ, heaterMaskRaster (1/10) (1/10) (9/2) (11/2) (9/2) (11/2) j i = true ↔
      ((∃ k : ℕ, k ≤ 10 ∧ coordToIndex (1/10) (1/10) (9/2 + (k : ℚ) * (1/10)) (9/2) = (j, i)) ∨
       (∃ k : ℕ, k ≤ 10 ∧ coordToIndex (1/10) (1/10) (9/2) (9/2 + (k : ℚ) * (1/10)) = (j, i)) ∨
       (∃ k : ℕ, k ≤ 10 ∧ coordToIndex (1/10) (1/10) (11/2) (9/2 + (k : ℚ) * (1/10)) = (j, i))) :=
  raster_marks_exact_samples (1/10) (1/10) (9/2) (11/2) (9/2) (11/2) 10 10
    (by norm_num) (by norm_num) (by norm_num) (by norm_num)

/-! ## Sweep structure lemmas (claims C1, C2, C4) -/

theorem sweepStep_fst_ne (a b denom : ℚ) (mask : ℕ → ℕ → Bool)
    (s : (ℕ → ℕ → ℚ) × ℚ) (c : ℕ × ℕ) (j i : ℕ) (h : ¬(j = c.1 ∧ i = c.2)) :
    (sweepStep a b denom mask s c).1 j i = s.1 j i := by
  unfold sweepStep
  split_ifs with hm
  · rfl
  · show updT s.1 c.1 c.2 _ j i = s.1 j i
    unfold updT
    rw [if_neg h]

theorem sweepStep_fst_of_mask (a b denom : ℚ) (mask : ℕ → ℕ → Bool)
    (s : (ℕ → ℕ → ℚ) × ℚ) (c : ℕ × ℕ) (j i : ℕ) (h : mask j i = true) :
    (sweepStep a b denom mask s c).1 j i = s.1 j i := by
  by_cases hc : j = c.1 ∧ i = c.2
  · unfold sweepStep
    rw [if_pos (by rw [← hc.1, ← hc.2]; exact h)]
  · exact sweepStep_fst_ne a b denom mask s c j i hc

theorem foldl_sweepStep_fst_notmem (a b denom : ℚ) (mask : ℕ → ℕ → Bool) :
    ∀ (L : List (ℕ × ℕ)) (s : (ℕ → ℕ → ℚ) × ℚ) (j i : ℕ), (j, i) ∉ L →
      (L.foldl (sweepStep a b denom mask) s).1 j i = s.1 j i := by
  intro L
  induction L with
  | nil => intro s j i _; rfl
  | cons hd tl ih =>
    intro s j i h
    rw [List.foldl_cons, ih _ j i (fun hm => h (List.mem_cons_of_mem hd hm))]
    exact sweepStep_fst_ne a b denom mask s hd j i
      (fun hc => h (by rw [List.mem_cons]; left; rw [Prod.ext_iff]; exact ⟨hc.1, hc.2⟩))

theorem foldl_sweepStep_fst_of_mask (a b denom : ℚ) (mask : ℕ → ℕ → Bool) (j i : ℕ)
    (h : mask j i = true) :
    ∀ (L : List (ℕ × ℕ)) (s : (ℕ → ℕ → ℚ) × ℚ),
      (L.foldl (sweepStep a b denom mask) s).1 j i = s.1 j i := by
  intro L
  induction L with
  | nil => intro s; rfl
  | cons hd tl ih =>
    intro s
    rw [List.foldl_cons, ih]
    exact sweepStep_fst_of_mask a b denom mask s hd j i h

theorem rowMajor_pairwise (ny nx : ℕ) :
    (rowMajor ny nx).Pairwise (fun c d => c.1 < d.1 ∨ (c.1 = d.1 ∧ c.2 < d.2)) := by
  unfold rowMajor
  apply List.pairwise_flatMap.mpr
  refine ⟨fun j _ => ?_, ?_⟩
  · exact (List.pairwise_lt_range' _ _).map _ (fun a b h => Or.inr ⟨rfl, h⟩)
  · refine (List.pairwise_lt_range' _ _).imp ?_
    intro a b hab x hx y hy
    simp only [List.mem_map] at hx hy
    obtain ⟨u, _, rfl⟩ := hx
    obtain ⟨v, _, rfl⟩ := hy
    exact Or.inl hab

theorem mem_rowMajor (ny nx j i : ℕ) :
    (j, i) ∈ rowMajor ny nx ↔ (1 ≤ j ∧ j ≤ ny - 2) ∧ (1 ≤ i ∧ i ≤ nx - 2) := by
  unfold rowMajor
  simp only [List.mem_flatMap, List.mem_map, List.mem_range'_1, Prod.mk.injEq]
  constructor
  · rintro ⟨j', ⟨hj1, hj2⟩, i', ⟨hi1, hi2⟩, rfl, rfl⟩
    omega
  · rintro ⟨⟨hj1, hj2⟩, hi1, hi2⟩
    have hny : 3 ≤ ny := by omega
    have hnx : 3 ≤ nx := by omega
    exact ⟨j, ⟨hj1, by omega⟩, i, ⟨hi1, by omega⟩, rfl, rfl⟩

/-- Core sweep characterization: an interior non-heater cell's value after a
sweep is the stencil formula applied to the pre-sweep values of its right
and upper neighbors and the post-sweep (already updated in the same pass)
values of its left and lower neighbors. -/
theorem sweep_fst_interior (a b denom : ℚ) (mask : ℕ → ℕ → Bool) (ny nx : ℕ)
    (T : ℕ → ℕ → ℚ) (j i : ℕ)
    (hj1 : 1 ≤ j) (hj2 : j ≤ ny - 2) (hi1 : 1 ≤ i) (hi2 : i ≤ nx - 2)
    (hm : mask j i = false) :
    (sweep a b denom mask ny nx T).1 j i
      = (a * (T j (i + 1) + (sweep a b denom mask ny nx T).1 j (i - 1))
          + b * (T (j + 1) i + (sweep a b denom mask ny nx T).1 (j - 1) i)) / denom := by
  have hmem : (j, i) ∈ rowMajor ny nx :=
    (mem_rowMajor ny nx j i).mpr ⟨⟨hj1, hj2⟩, hi1, hi2⟩
  obtain ⟨L1, L2, hsplit⟩ := List.append_of_mem hmem
  have hpw := rowMajor_pairwise ny nx
  rw [hsplit, List.pairwise_append] at hpw
  obtain ⟨hpw1, hpw2, hcross⟩ := hpw
  have hafter : ∀ y ∈ L2, (j, i).1 < y.1 ∨ ((j, i).1 = y.1 ∧ (j, i).2 < y.2) :=
    (List.pairwise_cons.mp hpw2).1
  have hR1 : (j, i + 1) ∉ L1 := by
    intro hx
    have := hcross _ hx (j, i) (List.mem_cons_self _ _)
    simp only at this
    omega
  have hR2 : (j + 1, i) ∉ L1 := by
    intro hx
    have := hcross _ hx (j, i) (List.mem_cons_self _ _)
    simp only at this
    omega
  have hR3 : (j, i - 1) ∉ L2 := by
    intro hx
    have := hafter _ hx
    simp only at this
    omega
  have hR4 : (j - 1, i) ∉ L2 := by
    intro hx
    have := hafter _ hx
    simp only at this
    omega
  have hR5 : (j, i) ∉ L2 := by
    intro hx
    have := hafter _ hx
    simp only at this
    omega
  have hfold : sweep a b denom mask ny nx T
      = (L2.foldl (sweepStep a b denom mask)
          (sweepStep a b denom mask (L1.foldl (sweepStep a b denom mask) (T, 0)) (j, i))) := by
    rw [sweep, hsplit, List.foldl_append, List.foldl_cons]
  set s1 := L1.foldl (sweepStep a b denom mask) (T, 0) with hs1
  have hmna : ¬ (mask (j, i).1 (j, i).2 = true) := by
    simp only [hm, Bool.false_eq_true, not_false_eq_true]
  have hval : (sweep a b denom mask ny nx T).1 j i
      = sweepUpdate a b denom s1.1 (j, i) := by
    rw [hfold, foldl_sweepStep_fst_notmem a b denom mask L2 _ j i hR5]
    unfold sweepStep
    rw [if_neg hmna]
    show updT s1.1 j i _ j i = _
    unfold updT
    rw [if_pos ⟨rfl, rfl⟩]
  have hright : s1.1 j (i + 1) = T j (i + 1) :=
    foldl_sweepStep_fst_notmem a b denom mask L1 _ j (i + 1) hR1
  have hup : s1.1 (j + 1) i = T (j + 1) i :=
    foldl_sweepStep_fst_notmem a b denom mask L1 _ (j + 1) i hR2
  have hleft : (sweep a b denom mask ny nx T).1 j (i - 1) = s1.1 j (i - 1) := by
    rw [hfold, foldl_sweepStep_fst_notmem a b denom mask L2 _ j (i - 1) hR3]
    exact sweepStep_fst_ne a b denom mask s1 (j, i) j (i - 1) (by simp only; omega)
  have hdown : (sweep a b denom mask ny nx T).1 (j - 1) i = s1.1 (j - 1) i := by
    rw [hfold, foldl_sweepStep_fst_notmem a b denom mask L2 _ (j - 1) i hR4]
    exact sweepStep_fst_ne a b denom mask s1 (j, i) (j - 1) i (by simp only; omega)
  rw [hval, hleft, hdown, ← hright, ← hup]
  rfl

/-- C1: each sweep replaces every interior non-heater cell (1 ≤ j ≤ ny-2,
1 ≤ i ≤ nx-2) in place with (a·(T[j,i+1] + T[j,i-1]) + b·(T[j+1,i] +
T[j-1,i])) / denom, where a = 1/dx², b = 1/dy², denom = 2(a+b); the row-major
visiting order means the left and lower neighbor values read are the ones
already updated in the same sweep (their final post-sweep values), while the
right and upper neighbor values are the pre-sweep ones — Gauss-Seidel, not
two-buffer Jacobi. -/
theorem sweep_gauss_seidel_update (dx dy : ℚ) (mask : ℕ → ℕ → Bool) (ny nx : ℕ)
    (T : ℕ → ℕ → ℚ) (j i : ℕ)
    (hj1 : 1 ≤ j) (hj2 : j ≤ ny - 2) (hi1 : 1 ≤ i) (hi2 : i ≤ nx - 2)
    (hm : mask j i = false) :
    (sweep (coefA dx) (coefB dy) (coefDenom dx dy) mask ny nx T).1 j i
      = (coefA dx * (T j (i + 1)
            + (sweep (coefA dx) (coefB dy) (coefDenom dx dy) mask ny nx T).1 j (i - 1))
        + coefB dy * (T (j + 1) i
            + (sweep (coefA dx) (coefB dy) (coefDenom dx dy) mask ny nx T).1 (j - 1) i))
          / coefDenom dx dy :=
  sweep_fst_interior (coefA dx) (coefB dy) (coefDenom dx dy) mask ny nx T j i
    hj1 hj2 hi1 hi2 hm

/-- Concrete instance of `sweep_gauss_seidel_update`: a 4 by 4 grid with
uniform spacing 1, no heater cells, at interior cell (1, 1). -/
theorem sweep_gauss_seidel_update_witness :
    (sweep (coefA 1) (coefB 1) (coefDenom 1 1) (fun _ _ => false) 4 4
        (fun j i : ℕ => (j : ℚ) + (i : ℚ))).1 1 1
      = (coefA 1 * ((fun j i : ℕ => (j : ℚ) + (i : ℚ)) 1 (1 + 1)
            + (sweep (coefA 1) (coefB 1) (coefDenom 1 1) (fun _ _ => false) 4 4
                (fun j i : ℕ => (j : ℚ) + (i : ℚ))).1 1 (1 - 1))
        + coefB 1 * ((fun j i : ℕ => (j : ℚ) + (i : ℚ)) (1 + 1) 1
            + (sweep (coefA 1) (coefB 1) (coefDenom 1 1) (fun _ _ => false) 4 4
                (fun j i : ℕ => (j : ℚ) + (i : ℚ))).1 (1 - 1) 1))
          / coefDenom 1 1 :=
  sweep_gauss_seidel_update 1 1 (fun _ _ => false) 4 4
    (fun j i : ℕ => (j : ℚ) + (i : ℚ)) 1 1
    (by norm_num) (by norm_num) (by norm_num) (by norm_num) rfl

theorem sweep_fst_of_mask (a b denom : ℚ) (mask : ℕ → ℕ → Bool) (ny nx : ℕ)
    (T : ℕ → ℕ → ℚ) (j i : ℕ) (h : mask j i = true) :
    (sweep a b denom mask ny nx T).1 j i = T j i :=
  foldl_sweepStep_fst_of_mask a b denom mask j i h (rowMajor ny nx) (T, 0)

theorem sweep_fst_of_ring (a b denom : ℚ) (mask : ℕ → ℕ → Bool) (ny nx : ℕ)
    (T : ℕ → ℕ → ℚ) (j i : ℕ) (h : j = 0 ∨ j = ny - 1 ∨ i = 0 ∨ i = nx - 1) :
    (sweep a b denom mask ny nx T).1 j i = T j i := by
  apply foldl_sweepStep_fst_notmem
  intro hmem
  have := (mem_rowMajor ny nx j i).mp hmem
  omega

theorem iterSweeps_fst_of_mask (a b denom : ℚ) (mask : ℕ → ℕ → Bool) (ny nx : ℕ)
    (j i : ℕ) (h : mask j i = true) :
    ∀ (k : ℕ) (T : ℕ → ℕ → ℚ), iterSweeps a b denom mask ny nx k T j i = T j i := by
  intro k
  induction k with
  | zero => intro T; rfl
  | succ n ih =>
    intro T
    show iterSweeps a b denom mask ny nx n (sweep a b denom mask ny nx T).1 j i = T j i
    rw [ih, sweep_fst_of_mask a b denom mask ny nx T j i h]

theorem iterSweeps_fst_of_ring (a b denom : ℚ) (mask : ℕ → ℕ → Bool) (ny nx : ℕ)
    (j i : ℕ) (h : j = 0 ∨ j = ny - 1 ∨ i = 0 ∨ i = nx - 1) :
    ∀ (k : ℕ) (T : ℕ → ℕ → ℚ), iterSweeps a b denom mask ny nx k T j i = T j i := by
  intro k
  induction k with
  | zero => intro T; rfl
  | succ n ih =>
    intro T
    show iterSweeps a b denom mask ny nx n (sweep a b denom mask ny nx T).1 j i = T j i
    rw [ih, sweep_fst_of_ring a b denom mask ny nx T j i h]

/-- C2: after stamping, no number of sweeps ever changes a heater cell (it
stays exactly heaterTemp) or an outermost-ring cell (it stays exactly
boundaryTemp): the relaxation loop never writes either kind of cell.  The
hypothesis that the mask marks no ring cell holds for the script's U mask,
whose marks all lie strictly inside the grid. -/
theorem heater_and_boundary_invariant (dx dy : ℚ) (mask : ℕ → ℕ → Bool) (ny nx : ℕ)
    (bT hT : ℚ)
    (hring : ∀ j i : ℕ, (j = 0 ∨ j = ny - 1 ∨ i = 0 ∨ i = nx - 1) → mask j i = false)
    (k j i : ℕ) :
    (mask j i = true →
      iterSweeps (coefA dx) (coefB dy) (coefDenom dx dy) mask ny nx k
        (stampHeater (fun _ _ => bT) mask hT) j i = hT) ∧
    ((j = 0 ∨ j = ny - 1 ∨ i = 0 ∨ i = nx - 1) →
      iterSweeps (coefA dx) (coefB dy) (coefDenom dx dy) mask ny nx k
        (stampHeater (fun _ _ => bT) mask hT) j i = bT) := by
  constructor
  · intro hm
    rw [iterSweeps_fst_of_mask _ _ _ mask ny nx j i hm k]
    simp [stampHeater, hm]
  · intro hr
    rw [iterSweeps_fst_of_ring _ _ _ mask ny nx j i hr k]
    simp [stampHeater, hring j i hr]

/-- Concrete instance of `heater_and_boundary_invariant`: a 4 by 4 grid with
a single heater cell at (1, 1), boundary 25, heater 185, after 2 sweeps,
checked at the heater cell (1, 1) and at the ring cell (0, 2) through the
ring disjunct with j = 0. -/
theorem heater_and_boundary_invariant_witness :
    ((fun j i : ℕ => decide (j = 1 ∧ i = 1)) 0 2 = true →
      iterSweeps (coefA 1) (coefB 1) (coefDenom 1 1)
        (fun j i : ℕ => decide (j = 1 ∧ i = 1)) 4 4 2
        (stampHeater (fun _ _ => (25 : ℚ)) (fun j i : ℕ => decide (j = 1 ∧ i = 1)) 185) 0 2
        = 185) ∧
    ((0 = 0 ∨ 0 = 4 - 1 ∨ 2 = 0 ∨ 2 = 4 - 1) →
      iterSweeps (coefA 1) (coefB 1) (coefDenom 1 1)
        (fun j i : ℕ => decide (j = 1 ∧ i = 1)) 4 4 2
        (stampHeater (fun _ _ => (25 : ℚ)) (fun j i : ℕ => decide (j = 1 ∧ i = 1)) 185) 0 2
        = 25) :=
  heater_and_boundary_invariant 1 1 (fun j i : ℕ => decide (j = 1 ∧ i = 1)) 4 4 25 185
    (by intro j i h; simp only [decide_eq_false_iff_not]; omega) 2 0 2

theorem sweepStep_bounds (a b denom : ℚ) (mask : ℕ → ℕ → Bool)
    (ha : 0 < a) (hb : 0 < b) (hd : denom = 2 * (a + b)) (lo hi : ℚ)
    (s : (ℕ → ℕ → ℚ) × ℚ) (c : ℕ × ℕ)
    (hs : ∀ j i : ℕ, lo ≤ s.1 j i ∧ s.1 j i ≤ hi) :
    ∀ j i : ℕ, lo ≤ (sweepStep a b denom mask s c).1 j i ∧
      (sweepStep a b denom mask s c).1 j i ≤ hi := by
  intro j i
  unfold sweepStep
  split_ifs with hm
  · exact hs j i
  · show lo ≤ updT s.1 c.1 c.2 (sweepUpdate a b denom s.1 c) j i ∧
      updT s.1 c.1 c.2 (sweepUpdate a b denom s.1 c) j i ≤ hi
    unfold updT
    split_ifs with hc
    · have h1 := hs c.1 (c.2 + 1)
      have h2 := hs c.1 (c.2 - 1)
      have h3 := hs (c.1 + 1) c.2
      have h4 := hs (c.1 - 1) c.2
      have hdpos : (0 : ℚ) < 2 * (a + b) := by linarith
      unfold sweepUpdate
      rw [hd]
      constructor
      · rw [le_div_iff₀ hdpos]
        nlinarith [mul_nonneg ha.le (sub_nonneg.mpr h1.1),
          mul_nonneg ha.le (sub_nonneg.mpr h2.1),
          mul_nonneg hb.le (sub_nonneg.mpr h3.1),
          mul_nonneg hb.le (sub_nonneg.mpr h4.1)]
      · rw [div_le_iff₀ hdpos]
        nlinarith [mul_nonneg ha.le (sub_nonneg.mpr h1.2),
          mul_nonneg ha.le (sub_nonneg.mpr h2.2),
          mul_nonneg hb.le (sub_nonneg.mpr h3.2),
          mul_nonneg hb.le (sub_nonneg.mpr h4.2)]
    · exact hs j i

theorem foldl_sweepStep_bounds (a b denom : ℚ) (mask : ℕ → ℕ → Bool)
    (ha : 0 < a) (hb : 0 < b) (hd : denom = 2 * (a + b)) (lo hi : ℚ) :
    ∀ (L : List (ℕ × ℕ)) (s : (ℕ → ℕ → ℚ) × ℚ),
      (∀ j i : ℕ, lo ≤ s.1 j i ∧ s.1 j i ≤ hi) →
      ∀ j i : ℕ, lo ≤ (L.foldl (sweepStep a b denom mask) s).1 j i ∧
        (L.foldl (sweepStep a b denom mask) s).1 j i ≤ hi := by
  intro L
  induction L with
  | nil => intro s hs; exact hs
  | cons hd' tl ih =>
    intro s hs
    rw [List.foldl_cons]
    exact ih _ (sweepStep_bounds a b denom mask ha hb hd lo hi s hd' hs)

theorem solveGo_fst_bounds (a b denom tol : ℚ) (mask : ℕ → ℕ → Bool) (ny nx : ℕ)
    (ha : 0 < a) (hb : 0 < b) (hd : denom = 2 * (a + b)) (lo hi : ℚ) :
    ∀ (fuel it : ℕ) (T : ℕ → ℕ → ℚ),
      (∀ j i : ℕ, lo ≤ T j i ∧ T j i ≤ hi) →
      ∀ j i : ℕ,
        lo ≤ (solveGo a b denom mask ny nx tol it fuel T).1 j i ∧
        (solveGo a b denom mask ny nx tol it fuel T).1 j i ≤ hi := by
  intro fuel
  induction fuel with
  | zero => intro it T hT; exact hT
  | succ n ih =>
    intro it T hT
    have hsw : ∀ j i : ℕ, lo ≤ (sweep a b denom mask ny nx T).1 j i ∧
        (sweep a b denom mask ny nx T).1 j i ≤ hi :=
      foldl_sweepStep_bounds a b denom mask ha hb hd lo hi (rowMajor ny nx) (T, 0) hT
    intro j i
    simp only [solveGo]
    split_ifs with hcv
    · exact hsw j i
    · exact ih (it + 1) (sweep a b denom mask ny nx T).1 hsw j i

/-- C4: when the solver run on the stamped initial field terminates in the
Converged state, every interior cell of the final field lies between
min(boundaryTemp, heaterTemp) and max(boundaryTemp, heaterTemp) inclusive
(discrete maximum principle; the bound in fact holds after any number of
sweeps). -/
theorem converged_maximum_principle (dx dy tol : ℚ) (mask : ℕ → ℕ → Bool)
    (ny nx maxIter : ℕ) (bT hT : ℚ) (hdx : dx ≠ 0) (hdy : dy ≠ 0) (it : ℕ)
    (hconv : (solve (coefA dx) (coefB dy) (coefDenom dx dy) mask ny nx tol maxIter
        (stampHeater (fun _ _ => bT) mask hT)).2 = SolveStatus.converged it)
    (j i : ℕ) (hj1 : 1 ≤ j) (hj2 : j ≤ ny - 2) (hi1 : 1 ≤ i) (hi2 : i ≤ nx - 2) :
    min bT hT ≤ (solve (coefA dx) (coefB dy) (coefDenom dx dy) mask ny nx tol maxIter
        (stampHeater (fun _ _ => bT) mask hT)).1 j i ∧
    (solve (coefA dx) (coefB dy) (coefDenom dx dy) mask ny nx tol maxIter
        (stampHeater (fun _ _ => bT) mask hT)).1 j i ≤ max bT hT := by
  have ha : 0 < coefA dx := by
    unfold coefA
    exact div_pos one_pos (pow_two_pos_of_ne_zero hdx)
  have hb : 0 < coefB dy := by
    unfold coefB
    exact div_pos one_pos (pow_two_pos_of_ne_zero hdy)
  have hinit : ∀ j' i' : ℕ,
      min bT hT ≤ stampHeater (fun _ _ => bT) mask hT j' i' ∧
      stampHeater (fun _ _ => bT) mask hT j' i' ≤ max bT hT := by
    intro j' i'
    unfold stampHeater
    split_ifs
    · exact ⟨min_le_right _ _, le_max_right _ _⟩
    · exact ⟨min_le_left _ _, le_max_left _ _⟩
  exact solveGo_fst_bounds (coefA dx) (coefB dy) (coefDenom dx dy) tol mask ny nx
    ha hb rfl (min bT hT) (max bT hT) maxIter 0
    (stampHeater (fun _ _ => bT) mask hT) hinit j i

/-- Concrete instance of `converged_maximum_principle`: the 3 by 3 grid with
no heater cells, boundary 25, heater temperature 185, tol = 1, budget 1: the
single interior cell's first update gives max_diff 0, so the solver
converges at iteration 0 and the cell lies in [25, 185]. -/
theorem converged_maximum_principle_witness :
    min (25 : ℚ) 185 ≤ (solve (coefA 1) (coefB 1) (coefDenom 1 1) (fun _ _ => false) 3 3 1 1
        (stampHeater (fun _ _ => (25 : ℚ)) (fun _ _ => false) 185)).1 1 1 ∧
    (solve (coefA 1) (coefB 1) (coefDenom 1 1) (fun _ _ => false) 3 3 1 1
        (stampHeater (fun _ _ => (25 : ℚ)) (fun _ _ => false) 185)).1 1 1 ≤ max (25 : ℚ) 185 :=
  converged_maximum_principle 1 1 1 (fun _ _ => false) 3 3 1 25 185
    (by norm_num) (by norm_num) 0
    (by
      have hrm : rowMajor 3 3 = [(1, 1)] := rfl
      unfold solve
      simp only [solveGo, sweep, hrm, List.foldl_cons, List.foldl_nil]
      norm_num [sweepStep, sweepUpdate, updT, stampHeater, coefA, coefB, coefDenom])
    1 1 (by norm_num) (by norm_num) (by norm_num) (by norm_num)

/-! ## Solver termination lemmas (claim C3) -/

theorem solveGo_converged_ge (a b denom tol : ℚ) (mask : ℕ → ℕ → Bool) (ny nx : ℕ) :
    ∀ (fuel it : ℕ) (T : ℕ → ℕ → ℚ) (k : ℕ),
      (solveGo a b denom mask ny nx tol it fuel T).2 = SolveStatus.converged k → it ≤ k := by
  intro fuel
  induction fuel with
  | zero =>
    intro it T k h
    exact absurd h (by simp [solveGo])
  | succ n ih =>
    intro it T k h
    simp only [solveGo] at h
    split_ifs at h with hcv
    · simp only [SolveStatus.converged.injEq] at h
      omega
    · have := ih (it + 1) (sweep a b denom mask ny nx T).1 k h
      omega

theorem solveGo_notConverged_iff (a b denom tol : ℚ) (mask : ℕ → ℕ → Bool) (ny nx : ℕ) :
    ∀ (fuel it : ℕ) (T : ℕ → ℕ → ℚ),
      ((solveGo a b denom mask ny nx tol it fuel T).2 = SolveStatus.notConverged ↔
        ∀ m < fuel, ¬ (sweep a b denom mask ny nx (iterSweeps a b denom mask ny nx m T)).2 < tol) := by
  intro fuel
  induction fuel with
  | zero =>
    intro it T
    simp [solveGo]
  | succ n ih =>
    intro it T
    simp only [solveGo]
    split_ifs with hcv
    · constructor
      · intro h
        exact absurd h (by simp)
      · intro h
        exact absurd hcv (h 0 (Nat.succ_pos n))
    · rw [ih (it + 1) (sweep a b denom mask ny nx T).1]
      constructor
      · intro h m hm
        cases m with
        | zero => exact hcv
        | succ m' => exact h m' (by omega)
      · intro h m hm
        exact h (m + 1) (by omega)

theorem solveGo_converged_iff (a b denom tol : ℚ) (mask : ℕ → ℕ → Bool) (ny nx : ℕ) :
    ∀ (fuel it : ℕ) (T : ℕ → ℕ → ℚ) (k : ℕ),
      ((solveGo a b denom mask ny nx tol it fuel T).2 = SolveStatus.converged (it + k) ↔
        (k < fuel ∧ (sweep a b denom mask ny nx (iterSweeps a b denom mask ny nx k T)).2 < tol ∧
          ∀ m < k, ¬ (sweep a b denom mask ny nx (iterSweeps a b denom mask ny nx m T)).2 < tol)) := by
  intro fuel
  induction fuel with
  | zero =>
    intro it T k
    constructor
    · intro h
      exact absurd h (by simp [solveGo])
    · intro h
      omega
  | succ n ih =>
    intro it T k
    simp only [solveGo]
    split_ifs with hcv
    · constructor
      · intro h
        simp only [SolveStatus.converged.injEq] at h
        have hk0 : k = 0 := by omega
        subst hk0
        exact ⟨Nat.succ_pos n, hcv, fun m hm => absurd hm (by omega)⟩
      · rintro ⟨hk, hlt, hall⟩
        rcases Nat.eq_zero_or_pos k with rfl | hkpos
        · simp
        · exact absurd hcv (hall 0 hkpos)
    · constructor
      · intro h
        have hge := solveGo_converged_ge a b denom tol mask ny nx n (it + 1)
          (sweep a b denom mask ny nx T).1 (it + k) h
        obtain ⟨k', rfl⟩ : ∃ k', k = k' + 1 := ⟨k - 1, by omega⟩
        rw [show it + (k' + 1) = (it + 1) + k' by omega] at h
        obtain ⟨h1, h2, h3⟩ := (ih (it + 1) (sweep a b denom mask ny nx T).1 k').mp h
        refine ⟨by omega, h2, ?_⟩
        intro m hm
        cases m with
        | zero => exact hcv
        | succ m' => exact h3 m' (by omega)
      · rintro ⟨hk, hlt, hall⟩
        rcases Nat.eq_zero_or_pos k with rfl | hkpos
        · exact absurd hlt hcv
        · obtain ⟨k', rfl⟩ : ∃ k', k = k' + 1 := ⟨k - 1, by omega⟩
          rw [show it + (k' + 1) = (it + 1) + k' by omega]
          exact (ih (it + 1) (sweep a b denom mask ny nx T).1 k').mpr
            ⟨by omega, hlt, fun m hm => hall (m + 1) (by omega)⟩

theorem solveGo_fst_eq (a b denom tol : ℚ) (mask : ℕ → ℕ → Bool) (ny nx : ℕ) :
    ∀ (fuel it : ℕ) (T : ℕ → ℕ → ℚ),
      (((solveGo a b denom mask ny nx tol it fuel T).2 = SolveStatus.notConverged →
        (solveGo a b denom mask ny nx tol it fuel T).1 = iterSweeps a b denom mask ny nx fuel T) ∧
       (∀ k, (solveGo a b denom mask ny nx tol it fuel T).2 = SolveStatus.converged (it + k) →
        (solveGo a b denom mask ny nx tol it fuel T).1 = iterSweeps a b denom mask ny nx (k + 1) T)) := by
  intro fuel
  induction fuel with
  | zero =>
    intro it T
    refine ⟨fun _ => rfl, fun k h => absurd h (by simp [solveGo])⟩
  | succ n ih =>
    intro it T
    simp only [solveGo]
    split_ifs with hcv
    · refine ⟨fun h => absurd h (by simp), fun k h => ?_⟩
      simp only [SolveStatus.converged.injEq] at h
      have hk0 : k = 0 := by omega
      subst hk0
      rfl
    · refine ⟨fun h => (ih (it + 1) (sweep a b denom mask ny nx T).1).1 h, fun k h => ?_⟩
      have hge := solveGo_converged_ge a b denom tol mask ny nx n (it + 1)
        (sweep a b denom mask ny nx T).1 (it + k) h
      obtain ⟨k', rfl⟩ : ∃ k', k = k' + 1 := ⟨k - 1, by omega⟩
      rw [show it + (k' + 1) = (it + 1) + k' by omega] at h
      exact (ih (it + 1) (sweep a b denom mask ny nx T).1).2 k' h

/-- C3: the solver's termination semantics.  It ends with `converged k`
exactly when sweep k is the first whose max_diff (the maximum absolute
per-cell change of that sweep) drops below tol within the budget, and with
the `notConverged` status flag — a value, not an exception — exactly when no
sweep among the maxIter performed does; in both cases the field is left as
the completed sweeps produced it, and the run continues into the
region-average and probe queries computed against that final field. -/
theorem solver_termination_spec (dx dy tol : ℚ) (mask : ℕ → ℕ → Bool)
    (ny nx maxIter : ℕ) (T : ℕ → ℕ → ℚ) (xl xr yb yt xq yq : ℚ) :
    ((solve (coefA dx) (coefB dy) (coefDenom dx dy) mask ny nx tol maxIter T).2
        = SolveStatus.notConverged ↔
      ∀ m < maxIter, ¬ sweepDiff (coefA dx) (coefB dy) (coefDenom dx dy) mask ny nx T m < tol) ∧
    (∀ k, (solve (coefA dx) (coefB dy) (coefDenom dx dy) mask ny nx tol maxIter T).2
        = SolveStatus.converged k ↔
      (k < maxIter ∧ sweepDiff (coefA dx) (coefB dy) (coefDenom dx dy) mask ny nx T k < tol ∧
        ∀ m < k, ¬ sweepDiff (coefA dx) (coefB dy) (coefDenom dx dy) mask ny nx T m < tol)) ∧
    ((solve (coefA dx) (coefB dy) (coefDenom dx dy) mask ny nx tol maxIter T).2
        = SolveStatus.notConverged →
      (solve (coefA dx) (coefB dy) (coefDenom dx dy) mask ny nx tol maxIter T).1
        = iterSweeps (coefA dx) (coefB dy) (coefDenom dx dy) mask ny nx maxIter T) ∧
    (∀ k, (solve (coefA dx) (coefB dy) (coefDenom dx dy) mask ny nx tol maxIter T).2
        = SolveStatus.converged k →
      (solve (coefA dx) (coefB dy) (coefDenom dx dy) mask ny nx tol maxIter T).1
        = iterSweeps (coefA dx) (coefB dy) (coefDenom dx dy) mask ny nx (k + 1) T) ∧
    (runSim (coefA dx) (coefB dy) (coefDenom dx dy) mask ny nx tol maxIter T
        dx dy xl xr yb yt xq yq
      = ((solve (coefA dx) (coefB dy) (coefDenom dx dy) mask ny nx tol maxIter T),
         (avgTempInside dx dy xl xr yb yt mask ny nx
            (solve (coefA dx) (coefB dy) (coefDenom dx dy) mask ny nx tol maxIter T).1,
          tempBelowE dx dy ny nx
            (solve (coefA dx) (coefB dy) (coefDenom dx dy) mask ny nx tol maxIter T).1 xq yq))) := by
  refine ⟨?_, ?_, ?_, ?_, rfl⟩
  · simpa only [sweepDiff] using
      solveGo_notConverged_iff (coefA dx) (coefB dy) (coefDenom dx dy) tol mask ny nx maxIter 0 T
  · intro k
    have h := solveGo_converged_iff (coefA dx) (coefB dy) (coefDenom dx dy) tol mask ny nx
      maxIter 0 T k
    rw [Nat.zero_add] at h
    simpa only [sweepDiff] using h
  · exact (solveGo_fst_eq (coefA dx) (coefB dy) (coefDenom dx dy) tol mask ny nx maxIter 0 T).1
  · intro k h
    have h2 := (solveGo_fst_eq (coefA dx) (coefB dy) (coefDenom dx dy) tol mask ny nx maxIter 0 T).2 k
    rw [Nat.zero_add] at h2
    exact h2 h

/-! ## Region-average query (claim C8) -/

theorem selectedVals_eq_filter (dx dy xl xr yb yt : ℚ) (mask : ℕ → ℕ → Bool)
    (ny nx : ℕ) (T : ℕ → ℕ → ℚ) :
    selectedVals dx dy xl xr yb yt mask ny nx T
      = ((allCells ny nx).filter fun c => insideMask dx dy xl xr yb yt mask c.1 c.2).map
          fun c => T c.1 c.2 := by
  unfold selectedVals
  induction allCells ny nx with
  | nil => rfl
  | cons hd tl ih =>
    cases hins : insideMask dx dy xl xr yb yt mask hd.1 hd.2
    · simp [List.filterMap_cons, List.filter_cons, hins, ih]
    · simp [List.filterMap_cons, List.filter_cons, hins, ih]

/-- C8: the region-average query is the arithmetic mean of the field values
at exactly the cells the interior region mask selects (the query rectangle
minus heater cells); it yields the empty-selection failure outcome (numpy's
NaN on a mean over zero cells, modelled as `none` — the `EmptyRegion` case)
precisely when the mask selects no cell, and that failure leaves the probe
query untouched: the query stage still computes the probe on the same
field. -/
theorem region_average_spec (dx dy xl xr yb yt : ℚ) (mask : ℕ → ℕ → Bool)
    (ny nx : ℕ) (T : ℕ → ℕ → ℚ) (xq yq : ℚ) :
    (∀ j i : ℕ, insideMask dx dy xl xr yb yt mask j i = true ↔
      ((xl + dx ≤ (i : ℚ) * dx ∧ (i : ℚ) * dx ≤ xr - dx) ∧
       (yb + dy ≤ (j : ℚ) * dy ∧ (j : ℚ) * dy ≤ yt - dy) ∧ mask j i = false)) ∧
    (selectedVals dx dy xl xr yb yt mask ny nx T
      = ((allCells ny nx).filter fun c => insideMask dx dy xl xr yb yt mask c.1 c.2).map
          fun c => T c.1 c.2) ∧
    (avgTempInside dx dy xl xr yb yt mask ny nx T = none ↔
      ((allCells ny nx).filter fun c => insideMask dx dy xl xr yb yt mask c.1 c.2) = []) ∧
    (∀ m : ℚ, avgTempInside dx dy xl xr yb yt mask ny nx T = some m →
      m * (((allCells ny nx).filter fun c => insideMask dx dy xl xr yb yt mask c.1 c.2).length : ℚ)
        = (((allCells ny nx).filter fun c => insideMask dx dy xl xr yb yt mask c.1 c.2).map
            fun c => T c.1 c.2).sum) ∧
    (avgTempInside dx dy xl xr yb yt mask ny nx T = none →
      queryStage dx dy xl xr yb yt mask ny nx T xq yq
        = (none, tempBelowE dx dy ny nx T xq yq)) := by
  have hsel := selectedVals_eq_filter dx dy xl xr yb yt mask ny nx T
  refine ⟨?_, hsel, ?_, ?_, ?_⟩
  · intro j i
    simp only [insideMask, xInsideFlag, yInsideFlag, Bool.and_eq_true, decide_eq_true_eq,
      Bool.not_eq_true']
    tauto
  · unfold avgTempInside npMean
    split_ifs with hemp
    · simp only [true_iff]
      rw [hsel] at hemp
      simpa using hemp
    · simp only [false_iff]
      intro hnil
      rw [hsel, hnil] at hemp
      simp at hemp
  · intro m hm
    unfold avgTempInside npMean at hm
    split_ifs at hm with hemp
    simp only [Option.some.injEq] at hm
    have hlen0 : (selectedVals dx dy xl xr yb yt mask ny nx T).length ≠ 0 := by
      intro h0
      exact hemp (List.isEmpty_iff.mpr (List.eq_nil_of_length_eq_zero h0))
    subst hm
    rw [hsel, List.length_map]
    refine div_mul_cancel₀ _ ?_
    rw [hsel, List.length_map] at hlen0
    exact Nat.cast_ne_zero.mpr hlen0
  · intro h
    unfold queryStage
    rw [h]
